import Mathlib

/-!
Verification development for the VSM (vector space model) scoring engine of
this repository (`src/index.ts`).  The engine is embedded shallowly:

* JS strings are modelled as `List Char` (`Str`); `String.prototype.toLowerCase`
  is modelled on the ASCII range (`jsToLower`), which is the only range the
  word-character splitter can let through.
* `split(/\W+/)` is modelled by `jsSplitNonWord`, including the empty fragments
  JavaScript produces at the borders of the string (the engine's
  `documentFrequency` uses the split result *without* filtering those out,
  which is observable).
* JS numbers are modelled as real numbers.  The engine's pervasive
  `x.toFixed(4)` / `parseFloat` round-trip is modelled by `round4`
  (round to 4 decimal digits); `0/0 = NaN` and `x/0 = ±Infinity` are modelled
  by the value type `JSVal` and the division `jsDiv`.
* `Array.prototype.sort` (stable since ES2019) is modelled by a stable
  insertion sort `sortLe` over the comparator of the source.
-/

/-- JS strings, modelled as lists of characters. -/
abbrev Str := List Char

/-- Does the character class `\w` (without the `u` flag) match `c`:
an ASCII letter, an ASCII digit, or an underscore. -/
def isWordChar (c : Char) : Bool :=
  (65 ≤ c.toNat && c.toNat ≤ 90) || (97 ≤ c.toNat && c.toNat ≤ 122) ||
    (48 ≤ c.toNat && c.toNat ≤ 57) || (c.toNat == 95)

/-- Model of `String.prototype.toLowerCase` on the ASCII range: `A`-`Z` is
mapped to `a`-`z`, every other character is left unchanged. -/
def jsToLower (c : Char) : Char :=
  if 65 ≤ c.toNat ∧ c.toNat ≤ 90 then Char.ofNat (c.toNat + 32) else c

/-- Lowercase a whole string (model of `s.toLowerCase()`). -/
def lowerStr (s : Str) : Str :=
  s.map jsToLower

/-- Scanner for `s.split(/\W+/)`.  The second argument is the state:
`some cur` when a fragment (whose characters are held reversed in `cur`) is
open — a fragment is open at the start of the string and right after every
word character — and `none` right after a separator character, so that a
maximal run of separators cuts the string exactly once. -/
def splitAux : List Char → Option (List Char) → List (List Char)
  | [], none => [[]]
  | [], some cur => [cur.reverse]
  | c :: cs, none =>
    if isWordChar c then splitAux cs (some [c]) else splitAux cs none
  | c :: cs, some cur =>
    if isWordChar c then splitAux cs (some (c :: cur))
    else cur.reverse :: splitAux cs none

/-- Model of `s.split(/\W+/)` in JavaScript: the string is cut at every
maximal run of non-word characters.  An empty fragment appears at the front
when the string starts with a non-word character, and at the back when it
ends with one; the empty string splits to `[[]]`. -/
def jsSplitNonWord (s : List Char) : List (List Char) :=
  splitAux s (some [])

/-- Specification-side tokenizer: the maximal runs of word characters of a
string, in order.  This is what "split on every maximal run of non-word
characters and discard the empty fragments" produces. -/
def wordRuns (s : List Char) : List (List Char) :=
  match s with
  | [] => []
  | c :: cs =>
    if isWordChar c
    then (c :: cs.takeWhile isWordChar) :: wordRuns (cs.dropWhile isWordChar)
    else wordRuns cs
termination_by s.length
decreasing_by
  · have := (List.dropWhile_sublist (l := cs) isWordChar).length_le
    simp only [List.length_cons]
    omega
  · simp only [List.length_cons]
    omega

/-- The spec-side tokenizer ignores a leading run of non-word characters. -/
theorem wordRuns_dropWhile_nonword (l : List Char) :
    wordRuns (l.dropWhile (fun c => !isWordChar c)) = wordRuns l := by
  induction l with
  | nil => rfl
  | cons c cs ih =>
    by_cases hc : isWordChar c
    · rw [List.dropWhile_cons_of_neg (by simp [hc])]
    · rw [List.dropWhile_cons_of_pos (by simp [hc]), ih, wordRuns, if_neg hc]

/-- Tokenization as the source performs it (inlined both in `getUniqueTerms`
and in `termFrequency`): lowercase, split on `/\W+/`, drop empty fragments
(`.filter((term) => term)`). -/
def tokenize (s : Str) : List Str :=
  (jsSplitNonWord (lowerStr s)).filter (fun t => !t.isEmpty)

/-- Model of `termFrequency` from the source: the number of tokens of the
document that are exactly the given term. -/
def termFrequency (term : Str) (document : Str) : ℕ :=
  ((tokenize document).filter (fun word => decide (word = term))).length

/-- Model of `documentFrequency` from the source: the number of documents
whose raw `toLowerCase().split(/\W+/)` result — without the empty-fragment
filter — contains the term. -/
def documentFrequency (term : Str) (documents : List Str) : ℕ :=
  (documents.filter (fun doc => decide (term ∈ jsSplitNonWord (lowerStr doc)))).length

/-- Model of `inverseDocumentFrequency` from the source: `0` when the
document frequency is `0` (JS `!df`), otherwise `log10(N / df)`. -/
noncomputable def inverseDocumentFrequency (term : Str) (documents : List Str) : ℝ :=
  if documentFrequency term documents = 0 then 0
  else Real.logb 10 ((documents.length : ℝ) / (documentFrequency term documents : ℝ))

/-- Model of the `x.toFixed(4)` / `parseFloat` round-trip the source applies
at every numeric boundary: round to 4 decimal digits. -/
noncomputable def round4 (x : ℝ) : ℝ :=
  (round (x * 10000) : ℤ) / 10000

-- Sanity examples for the tokenizer model.
example : tokenize ['T', 'h', 'e', ' ', 'c', 'a', 't'] = [['t', 'h', 'e'], ['c', 'a', 't']] := by
  decide
example : jsSplitNonWord ['a', '!'] = [['a'], []] := by decide
example : jsSplitNonWord [] = [[]] := by decide
example : tokenize ['!', '?'] = [] := by decide
example : termFrequency ['a'] ['a', '!', 'A'] = 2 := by decide
example : documentFrequency [] [['a', '!']] = 1 := by decide

/-- Helper for relating the JavaScript split to the spec tokenizer: a
one-element list when the fragment is non-empty, nothing otherwise. -/
def listIfNonempty (x : List Char) : List (List Char) :=
  if x = [] then [] else [x]

/-- Joint characterization of the two scanner states: filtering the empty
fragments out of the scanner's output yields the maximal word-character
runs (with the pending fragment prepended in the `some` state). -/
theorem splitAux_filter (l : List Char) :
    ((splitAux l none).filter (fun t => !t.isEmpty) = wordRuns l)
    ∧ ∀ cur : List Char,
        (splitAux l (some cur)).filter (fun t => !t.isEmpty)
          = listIfNonempty (cur.reverse ++ l.takeWhile isWordChar)
              ++ wordRuns (l.dropWhile isWordChar) := by
  induction l with
  | nil =>
    constructor
    · simp [splitAux, wordRuns]
    · intro cur
      by_cases hcur : cur.reverse = []
      · simp [splitAux, wordRuns, listIfNonempty, hcur]
      · simp [splitAux, wordRuns, listIfNonempty, hcur]
  | cons c cs ih =>
    by_cases hc : isWordChar c
    · constructor
      · rw [show splitAux (c :: cs) none = splitAux cs (some [c]) by
              simp [splitAux, hc]]
        rw [ih.2 [c]]
        rw [wordRuns, if_pos hc]
        simp [listIfNonempty]
      · intro cur
        rw [show splitAux (c :: cs) (some cur) = splitAux cs (some (c :: cur)) by
              simp [splitAux, hc]]
        rw [ih.2 (c :: cur)]
        rw [List.takeWhile_cons_of_pos hc, List.dropWhile_cons_of_pos hc]
        simp [listIfNonempty]
    · constructor
      · rw [show splitAux (c :: cs) none = splitAux cs none by simp [splitAux, hc]]
        rw [ih.1, wordRuns, if_neg hc]
      · intro cur
        rw [show splitAux (c :: cs) (some cur) = cur.reverse :: splitAux cs none by
              simp [splitAux, hc]]
        rw [List.takeWhile_cons_of_neg hc, List.dropWhile_cons_of_neg hc]
        rw [wordRuns, if_neg hc]
        by_cases hcur : cur.reverse = []
        · simp [listIfNonempty, hcur, ih.1]
        · simp [listIfNonempty, hcur, ih.1]

/-- Tokenization equals the maximal word-character runs of the lowercased
string. -/
theorem tokenize_eq_wordRuns (s : Str) :
    tokenize s = wordRuns (lowerStr s) := by
  unfold tokenize jsSplitNonWord
  rw [(splitAux_filter (lowerStr s)).2 []]
  generalize lowerStr s = l
  rcases l with _ | ⟨c, cs⟩
  · simp [wordRuns, listIfNonempty]
  · by_cases hc : isWordChar c
    · rw [List.takeWhile_cons_of_pos hc, List.dropWhile_cons_of_pos hc]
      rw [show wordRuns (c :: cs)
            = (c :: cs.takeWhile isWordChar) :: wordRuns (cs.dropWhile isWordChar) from by
          rw [wordRuns, if_pos hc]]
      simp [listIfNonempty]
    · rw [List.takeWhile_cons_of_neg hc, List.dropWhile_cons_of_neg hc]
      rw [show wordRuns (c :: cs) = wordRuns cs from by rw [wordRuns, if_neg hc]]
      simp [listIfNonempty]

/-- The character class `\w` is untouched by ASCII lowercasing on its
complement: a non-word character is not an uppercase ASCII letter, so
`toLowerCase` leaves it alone. -/
theorem jsToLower_of_not_word (c : Char) (h : isWordChar c = false) :
    jsToLower c = c := by
  simp only [isWordChar, Bool.or_eq_false_iff, Bool.and_eq_false_iff,
    decide_eq_false_iff_not, beq_eq_false_iff_ne, ne_eq] at h
  unfold jsToLower
  rw [if_neg (by omega)]

/-- A string of non-word characters has no word-character runs. -/
theorem wordRuns_eq_nil_of_nonword (l : List Char)
    (h : ∀ c ∈ l, isWordChar c = false) : wordRuns l = [] := by
  induction l with
  | nil => simp [wordRuns]
  | cons c cs ih =>
    rw [wordRuns, if_neg (by simp [h c (by simp)])]
    exact ih (fun d hd => h d (List.mem_cons_of_mem c hd))

/-- C5: tokenization lowercases the input, splits it on every maximal run of
characters that are not an ASCII letter, digit or underscore, and discards
the empty fragments; an input with no word characters tokenizes to the
empty sequence. -/
theorem tokenize_spec (s : Str) :
    tokenize s = wordRuns (lowerStr s)
    ∧ ((∀ c ∈ s, isWordChar c = false) → tokenize s = []) := by
  refine ⟨tokenize_eq_wordRuns s, fun h => ?_⟩
  rw [tokenize_eq_wordRuns]
  apply wordRuns_eq_nil_of_nonword
  intro c hc
  simp only [lowerStr, List.mem_map] at hc
  obtain ⟨a, ha, rfl⟩ := hc
  rw [jsToLower_of_not_word a (h a ha)]
  exact h a ha

/-- Witness for C5 at the concrete word-character-free input `"!"`. -/
theorem tokenize_spec_witness :
    (∀ c ∈ (['!'] : Str), isWordChar c = false) ∧ tokenize ['!'] = [] :=
  ⟨by decide, (tokenize_spec ['!']).2 (by decide)⟩

/-- Document frequency is a count over the documents, so it never exceeds
the size of the collection. -/
theorem documentFrequency_le_length (t : Str) (docs : List Str) :
    documentFrequency t docs ≤ docs.length :=
  List.length_filter_le _ _

/-- Inverse document frequency is never negative: it is `0` for an absent
term, and `log10(N / df)` with `1 ≤ df ≤ N` otherwise. -/
theorem idf_nonneg (t : Str) (docs : List Str) :
    0 ≤ inverseDocumentFrequency t docs := by
  unfold inverseDocumentFrequency
  by_cases h : documentFrequency t docs = 0
  · simp [h]
  · rw [if_neg h]
    have h1 : 0 < documentFrequency t docs := Nat.pos_of_ne_zero h
    apply Real.logb_nonneg (by norm_num)
    exact (one_le_div (by exact_mod_cast h1)).mpr
      (by exact_mod_cast documentFrequency_le_length t docs)

/-- C1 (counterexample): in a one-document collection in which the term
occurs, the document frequency is `1` yet the inverse document frequency is
`log10(1/1) = 0`, so `idf = 0` does not imply `df = 0`. -/
theorem idf_zero_iff_df_zero_counterexample :
    inverseDocumentFrequency ['a'] [['a']] = 0
    ∧ documentFrequency ['a'] [['a']] ≠ 0 := by
  have hdf : documentFrequency ['a'] [['a']] = 1 := by decide
  constructor
  · unfold inverseDocumentFrequency
    rw [if_neg (by decide), hdf]
    norm_num [Real.logb_one]
  · rw [hdf]
    norm_num

/-- C1 (amended): for every term and collection, `idf = 0` exactly when the
document frequency is `0` (term absent everywhere) or equal to the size of
the collection (term present in every document, making `log10(N/df) = 0`). -/
theorem idf_eq_zero_iff (t : Str) (docs : List Str) :
    inverseDocumentFrequency t docs = 0
      ↔ (documentFrequency t docs = 0
         ∨ documentFrequency t docs = docs.length) := by
  unfold inverseDocumentFrequency
  by_cases hdf : documentFrequency t docs = 0
  · simp [hdf]
  · rw [if_neg hdf]
    have h1 : 0 < documentFrequency t docs := Nat.pos_of_ne_zero hdf
    have hN : 0 < docs.length := lt_of_lt_of_le h1 (documentFrequency_le_length t docs)
    have hdfR : (0:ℝ) < (documentFrequency t docs : ℝ) := by exact_mod_cast h1
    have hNR : (0:ℝ) < (docs.length : ℝ) := by exact_mod_cast hN
    have hxpos : 0 < (docs.length : ℝ) / (documentFrequency t docs : ℝ) :=
      div_pos hNR hdfR
    rw [Real.logb_eq_zero]
    constructor
    · rintro (h | h | h | h | h | h)
      · norm_num at h
      · norm_num at h
      · norm_num at h
      · exact absurd h (ne_of_gt hxpos)
      · right
        have := (div_eq_one_iff_eq (ne_of_gt hdfR)).mp h
        exact_mod_cast this.symm
      · linarith
    · rintro (h | h)
      · exact absurd h hdf
      · refine Or.inr (Or.inr (Or.inr (Or.inr (Or.inl ?_))))
        rw [h]
        exact div_self (ne_of_gt hNR)

/-- C6: the inverse document frequency is `0` for an absent term and
`log10(N/df)` otherwise, and it always lies in `[0, log10 N]` for a
collection of `N ≥ 1` documents. -/
theorem idf_formula_and_bounds (t : Str) (docs : List Str) (h : 1 ≤ docs.length) :
    (documentFrequency t docs = 0 → inverseDocumentFrequency t docs = 0)
    ∧ (documentFrequency t docs ≠ 0 →
        inverseDocumentFrequency t docs
          = Real.logb 10 ((docs.length : ℝ) / (documentFrequency t docs : ℝ)))
    ∧ 0 ≤ inverseDocumentFrequency t docs
    ∧ inverseDocumentFrequency t docs ≤ Real.logb 10 (docs.length : ℝ) := by
  have hNR : (0:ℝ) < (docs.length : ℝ) := by exact_mod_cast h
  refine ⟨fun h0 => by simp [inverseDocumentFrequency, h0],
          fun h0 => by rw [inverseDocumentFrequency, if_neg h0],
          idf_nonneg t docs, ?_⟩
  unfold inverseDocumentFrequency
  by_cases h0 : documentFrequency t docs = 0
  · rw [if_pos h0]
    exact Real.logb_nonneg (by norm_num) (by exact_mod_cast h)
  · rw [if_neg h0]
    have h1 : 0 < documentFrequency t docs := Nat.pos_of_ne_zero h0
    have hdfR : (0:ℝ) < (documentFrequency t docs : ℝ) := by exact_mod_cast h1
    rw [Real.logb_le_logb (by norm_num) (div_pos hNR hdfR) hNR]
    exact div_le_self (le_of_lt hNR) (by exact_mod_cast h1)

/-- Witness for C6 at the one-document collection `["a"]` and term `"a"`. -/
theorem idf_formula_and_bounds_witness :
    1 ≤ ([['a']] : List Str).length
    ∧ 0 ≤ inverseDocumentFrequency ['a'] [['a']]
    ∧ inverseDocumentFrequency ['a'] [['a']]
        ≤ Real.logb 10 (([['a']] : List Str).length : ℝ) :=
  ⟨by decide, (idf_formula_and_bounds ['a'] [['a']] (by decide)).2.2.1,
    (idf_formula_and_bounds ['a'] [['a']] (by decide)).2.2.2⟩

/-- C7 (counterexample): `documentFrequency` tests membership in the raw
split result, which still holds the empty fragment a trailing separator
produces, so the empty term is counted as present in `"a!"` although the
tokenized form of `"a!"` does not contain it. -/
theorem documentFrequency_counterexample :
    documentFrequency [] [['a', '!']] = 1
    ∧ (([['a', '!']] : List Str).filter
        (fun d => decide (([] : Str) ∈ tokenize d))).length = 0 := by
  decide

/-- C7 (amended): for every non-empty term, the document frequency equals
the number of documents whose tokenized form contains the term, and it
never exceeds the size of the collection.  (The empty string — which is not
a token — is the only point where the raw split and the tokenized form
disagree.) -/
theorem documentFrequency_spec (t : Str) (docs : List Str) (h : t ≠ []) :
    documentFrequency t docs
      = (docs.filter (fun d => decide (t ∈ tokenize d))).length
    ∧ documentFrequency t docs ≤ docs.length := by
  refine ⟨?_, List.length_filter_le _ _⟩
  unfold documentFrequency
  congr 1
  apply List.filter_congr
  intro d _
  simp only [decide_eq_decide]
  unfold tokenize
  rw [List.mem_filter]
  constructor
  · intro hm
    exact ⟨hm, by simpa using h⟩
  · intro hm
    exact hm.1

/-- Witness for C7 at the term `"a"` and the collection `["a"]`. -/
theorem documentFrequency_spec_witness :
    (['a'] : Str) ≠ []
    ∧ documentFrequency ['a'] [['a']]
        = (([['a']] : List Str).filter
            (fun d => decide ((['a'] : Str) ∈ tokenize d))).length :=
  ⟨by decide, (documentFrequency_spec ['a'] [['a']] (by decide)).1⟩

/-- C8: the term frequency counts the exact matches of the term among the
tokens, and a term that does not occur among the tokens has term frequency
`0` and hence TF-IDF weight `round4(0 * round4(idf)) = 0`. -/
theorem termFrequency_spec (t T : Str) (docs : List Str) :
    termFrequency t T = (tokenize T).count t
    ∧ (t ∉ tokenize T →
        termFrequency t T = 0
        ∧ round4 ((termFrequency t T : ℝ)
            * round4 (inverseDocumentFrequency t docs)) = 0) := by
  have hcount : termFrequency t T = (tokenize T).count t := by
    unfold termFrequency
    rw [List.count_eq_countP, List.countP_eq_length_filter]
    congr 1
    apply List.filter_congr
    intro x _
    rw [Bool.eq_iff_iff]
    simp
  refine ⟨hcount, fun hnm => ?_⟩
  have h0 : termFrequency t T = 0 := by
    rw [hcount]
    exact List.count_eq_zero.mpr hnm
  refine ⟨h0, ?_⟩
  rw [h0]
  simp [round4]

/-- Witness for C8 at the term `"a"`, the text `"b"` and the empty
collection. -/
theorem termFrequency_spec_witness :
    (['a'] : Str) ∉ tokenize ['b']
    ∧ termFrequency ['a'] ['b'] = 0
    ∧ round4 ((termFrequency ['a'] ['b'] : ℝ)
        * round4 (inverseDocumentFrequency ['a'] [])) = 0 :=
  ⟨by decide, ((termFrequency_spec ['a'] ['b'] []).2 (by decide)).1,
    ((termFrequency_spec ['a'] ['b'] []).2 (by decide)).2⟩

/-- Insertion into a JS `Set` (in insertion order): a term already present
is ignored, a new term goes to the back. -/
def insertUnique (l : List Str) (t : Str) : List Str :=
  if t ∈ l then l else l ++ [t]

/-- Model of `getUniqueTerms` from the source: tokenize every string and
collect the tokens into a `Set`, then list them in insertion order
(`Array.from`). -/
def getUniqueTerms (documents : List Str) : List Str :=
  documents.foldl (fun acc doc => (tokenize doc).foldl insertUnique acc) []

/-- Join a list of strings with `", "` (model of `Array.prototype.join`). -/
def commaJoin : List Str → Str
  | [] => []
  | [x] => x
  | x :: xs => x ++ [',', ' '] ++ commaJoin xs

/-- One row of the TF-IDF table produced by `calculateTFIDF`: the term, its
term frequencies in the query and the four documents, its document
frequency, its rounded IDF and the rounded TF-IDF weights (the source holds
the rounded values as 4-decimal strings; the model holds the numbers they
parse back to). -/
structure TermRow where
  term : Str
  TF_Q : ℕ
  TF_D1 : ℕ
  TF_D2 : ℕ
  TF_D3 : ℕ
  TF_D4 : ℕ
  DF : ℕ
  IDF : ℝ
  TFIDF_Q : ℝ
  TFIDF_D1 : ℝ
  TFIDF_D2 : ℝ
  TFIDF_D3 : ℝ
  TFIDF_D4 : ℝ
  containingDocs : Str

/-- Model of `calculateTFIDF` from the source.  The source reads
`documents[0] .. documents[3]` directly (the app always passes exactly four
documents; the model uses `getD` with an empty default where JavaScript
would throw on a shorter collection).  `IDF` is the `toFixed(4)` string of
the raw IDF, reparsed (`round4`); each weight is the term frequency times
that already-rounded IDF, itself then rounded. -/
noncomputable def calculateTFIDF (query : Str) (documents : List Str) : List TermRow :=
  (getUniqueTerms (query :: documents)).map fun term =>
    let tfQ := termFrequency term query
    let tfD1 := termFrequency term (documents.getD 0 [])
    let tfD2 := termFrequency term (documents.getD 1 [])
    let tfD3 := termFrequency term (documents.getD 2 [])
    let tfD4 := termFrequency term (documents.getD 3 [])
    let df := documentFrequency term documents
    let idf4 := round4 (inverseDocumentFrequency term documents)
    { term := term
      TF_Q := tfQ
      TF_D1 := tfD1
      TF_D2 := tfD2
      TF_D3 := tfD3
      TF_D4 := tfD4
      DF := df
      IDF := idf4
      TFIDF_Q := round4 ((tfQ : ℝ) * idf4)
      TFIDF_D1 := round4 ((tfD1 : ℝ) * idf4)
      TFIDF_D2 := round4 ((tfD2 : ℝ) * idf4)
      TFIDF_D3 := round4 ((tfD3 : ℝ) * idf4)
      TFIDF_D4 := round4 ((tfD4 : ℝ) * idf4)
      containingDocs := commaJoin
        ((if 0 < tfD1 then [['D', '1']] else [])
          ++ (if 0 < tfD2 then [['D', '2']] else [])
          ++ (if 0 < tfD3 then [['D', '3']] else [])
          ++ (if 0 < tfD4 then [['D', '4']] else [])) }

/-- A JavaScript number as the similarity pipeline can produce it: an
ordinary (real) number, `NaN`, or a signed infinity (`inf true` is
`+Infinity`). -/
inductive JSVal where
  | num : ℝ → JSVal
  | nan : JSVal
  | inf : Bool → JSVal

/-- The real number of a numeric `JSVal` (and `0` as a default otherwise:
only used in statements that are guarded by the value being numeric). -/
def JSVal.valD : JSVal → ℝ
  | JSVal.num x => x
  | _ => 0

/-- JavaScript division: `a / b` is the real quotient for `b ≠ 0`;
`0 / 0` is `NaN` and `a / 0` is a signed infinity for `a ≠ 0`. -/
noncomputable def jsDiv (a b : ℝ) : JSVal :=
  if b = 0 then (if a = 0 then JSVal.nan else JSVal.inf (decide (0 < a)))
  else JSVal.num (a / b)

/-- `toFixed(4)` (re-parsed) on a JavaScript value: rounds a number to 4
decimal digits; `NaN` and the infinities print and re-parse to
themselves. -/
noncomputable def jsToFixed4 : JSVal → JSVal
  | JSVal.num x => JSVal.num (round4 x)
  | v => v

/-- Model of `vectorMagnitude` from the source: the square root of the sum
of squares (a `reduce` with accumulator `0`), presented via `toFixed(4)`. -/
noncomputable def vectorMagnitude (vector : List ℝ) : ℝ :=
  round4 (Real.sqrt (vector.foldl (fun sum value => sum + value * value) 0))

/-- Model of `dotProduct` from the source: a `reduce` over the first vector
that adds `value * vector2[i]` (pairing by position), presented via
`toFixed(4)`.  The pipeline only calls it on vectors of equal length. -/
noncomputable def dotProduct (vector1 vector2 : List ℝ) : ℝ :=
  round4 ((List.zipWith (fun value value2 => value * value2) vector1 vector2).foldl
    (fun sum x => sum + x) 0)

/-- Model of `createVector` from the source: project a term-to-weight map
onto the vocabulary, entry `i` being the weight of term `i`, or `0` for a
term with no (or an undefined) entry (`TF_IDF[term] || 0`). -/
def createVector (weights : Str → Option ℝ) (uniqueTerms : List Str) : List ℝ :=
  uniqueTerms.map fun term => (weights term).getD 0

/-- Model of the `tableData.reduce((acc, item) => {acc[item.term] = ...})`
object builder from `rankDocuments`: a later row with the same term
overwrites an earlier one, so lookup finds the last matching row. -/
def buildMap (rows : List TermRow) (f : TermRow → Option ℝ) : Str → Option ℝ :=
  fun t => (rows.reverse.find? fun r => decide (r.term = t)).bind f

/-- The TF-IDF weight a row holds for document number `j` (1-based);
`none` models the `undefined` a `TF_IDF[`D{j}`]` lookup yields outside
`D1..D4`. -/
def rowWeightD (r : TermRow) : ℕ → Option ℝ
  | 1 => some r.TFIDF_D1
  | 2 => some r.TFIDF_D2
  | 3 => some r.TFIDF_D3
  | 4 => some r.TFIDF_D4
  | _ => none

/-- The query vector `rankDocuments` builds: the `TF_IDF.Q` column of the
table projected onto the table's own term order. -/
def queryVectorOf (tableData : List TermRow) : List ℝ :=
  createVector (buildMap tableData fun r => some r.TFIDF_Q)
    (tableData.map fun r => r.term)

/-- The vector for document number `j` that `rankDocuments` builds: the
`TF_IDF.D{j}` column of the table projected onto the table's own term
order. -/
def docVectorOf (tableData : List TermRow) (j : ℕ) : List ℝ :=
  createVector (buildMap tableData fun r => rowWeightD r j)
    (tableData.map fun r => r.term)

/-- Result record of `cosineSimilarity` from the source: the rounded
similarity (a string in the source, hence a `JSVal` here) and the rounded
query magnitude. -/
structure CosineResult where
  similarityScore : JSVal
  magnitudeQuery : ℝ

/-- Model of `cosineSimilarity` from the source: the rounded dot product
divided by the product of the two rounded magnitudes, the quotient itself
presented via `toFixed(4)`.  There is no guard: a zero denominator goes
through `jsDiv` and produces `NaN` or an infinity. -/
noncomputable def cosineSimilarity (queryVector documentVector : List ℝ) : CosineResult :=
  let dotProd := dotProduct queryVector documentVector
  let magnitudeQuery := vectorMagnitude queryVector
  let magnitudeDoc := vectorMagnitude documentVector
  { similarityScore := jsToFixed4 (jsDiv dotProd (magnitudeQuery * magnitudeDoc))
    magnitudeQuery := magnitudeQuery }

/-- One entry of the ranked output of `rankDocuments` (field names as in
the source, including the `margitanQuery` typo). -/
structure RankedResult where
  margitanQuery : ℝ
  queryVectors : List ℝ
  docIndex : ℕ
  similarity : JSVal
  vector : List ℝ
  vectorLength : ℝ
  dotProducts : List (ℝ × ℝ)
  dotProduct : ℝ

/-- The record `rankDocuments` builds for document number `j` (1-based). -/
noncomputable def mkEntry (queryVector : List ℝ) (tableData : List TermRow)
    (j : ℕ) : RankedResult :=
  let docVector := docVectorOf tableData j
  let cs := cosineSimilarity queryVector docVector
  { margitanQuery := cs.magnitudeQuery
    queryVectors := queryVector.filter fun v => decide (0 < v)
    docIndex := j
    similarity := cs.similarityScore
    vector := docVector.filter fun v => decide (0 < v)
    vectorLength := vectorMagnitude docVector
    dotProducts := (docVector.zip queryVector).filter fun p =>
      decide (0 < p.1) && decide (0 < p.2)
    dotProduct := dotProduct queryVector docVector }

/-- The pre-sort list of ranked records: one record per document, the
record for the document at (0-based) position `i` carrying
`docIndex = i + 1` and the weights of column `D(i+1)`. -/
noncomputable def rankEntriesAux (queryVector : List ℝ) (tableData : List TermRow) :
    ℕ → List Str → List RankedResult
  | _, [] => []
  | j, _ :: rest =>
    mkEntry queryVector tableData j :: rankEntriesAux queryVector tableData (j + 1) rest

/-- Does the source's sort comparator
`(a, b) => parseFloat(b.similarity) - parseFloat(a.similarity)` return a
value `> 0` (which is the only outcome that moves `b` in front of `a`)?
`NaN` comparator results (any `NaN` operand, or `∞ - ∞`) are never `> 0`,
so the sort treats such pairs as ties. -/
noncomputable def cmpGT : JSVal → JSVal → Bool
  | JSVal.num x, JSVal.num y => decide (x < y)
  | JSVal.num _, JSVal.inf s => s
  | JSVal.inf s, JSVal.num _ => !s
  | JSVal.inf s, JSVal.inf t => decide (s ≠ t) && t
  | JSVal.nan, _ => false
  | _, JSVal.nan => false

/-- Keep `a` before (or at) `b` under the source's comparator: everything
except a strictly positive comparator value. -/
noncomputable def simLe (a b : RankedResult) : Bool :=
  !(cmpGT a.similarity b.similarity)

/-- Stable insertion: `a` goes in front of the first element it may precede
(so in front of every element it ties with — `a` is always the earlier
element when the sort below inserts). -/
def insertLe {α : Type} (le : α → α → Bool) (a : α) : List α → List α
  | [] => [a]
  | b :: bs => if le a b then a :: b :: bs else b :: insertLe le a bs

/-- Stable insertion sort.  `Array.prototype.sort` is required (ES2019) to
be stable and to order consistently with the comparator; for a consistent
comparator that determines the result uniquely, so any stable sorting
algorithm is a faithful model. -/
def sortLe {α : Type} (le : α → α → Bool) : List α → List α
  | [] => []
  | a :: as => insertLe le a (sortLe le as)

/-- Model of `rankDocuments` from the source: build one record per document
against the query vector (computed once from the table), then sort by
descending similarity with the stable sort of `Array.prototype.sort`. -/
noncomputable def rankDocuments (documents : List Str) (tableData : List TermRow) :
    List RankedResult :=
  sortLe simLe (rankEntriesAux (queryVectorOf tableData) tableData 1 documents)

/-- A left fold adding the elements equals the accumulator plus the sum. -/
theorem foldl_add_eq_sum (v : List ℝ) :
    ∀ a : ℝ, v.foldl (fun sum x => sum + x) a = a + v.sum := by
  induction v with
  | nil => intro a; simp
  | cons x xs ih =>
    intro a
    rw [List.foldl_cons, ih (a + x), List.sum_cons]
    ring

/-- A left fold adding the squares equals the accumulator plus the sum of
squares. -/
theorem foldl_sq_eq_sum (v : List ℝ) :
    ∀ a : ℝ, v.foldl (fun sum value => sum + value * value) a
      = a + ((v.map fun x => x * x).sum) := by
  induction v with
  | nil => intro a; simp
  | cons x xs ih =>
    intro a
    rw [List.foldl_cons, ih (a + x * x), List.map_cons, List.sum_cons]
    ring

/-- Rounding to 4 decimals fixes `0`. -/
theorem round4_zero : round4 0 = 0 := by
  simp [round4]

/-- Rounding to 4 decimals fixes `1`. -/
theorem round4_one : round4 1 = 1 := by
  unfold round4
  rw [one_mul, show ((10000:ℝ)) = ((10000:ℕ):ℝ) by norm_num, round_natCast]
  norm_num

/-- Rounding to 4 decimals preserves non-negativity. -/
theorem round4_nonneg {x : ℝ} (h : 0 ≤ x) : 0 ≤ round4 x := by
  unfold round4
  apply div_nonneg _ (by norm_num)
  have h1 : (0:ℤ) ≤ round (x * 10000) := by
    rw [round_eq, Int.le_floor]
    have := mul_nonneg h (by norm_num : (0:ℝ) ≤ 10000)
    push_cast
    linarith
  exact_mod_cast h1

/-- A quantity at least one ulp (`1/10000`) does not round to zero. -/
theorem round4_pos {y : ℝ} (h : 1/10000 ≤ y) : 0 < round4 y := by
  unfold round4
  apply div_pos _ (by norm_num)
  have h1 : (1:ℤ) ≤ round (y * 10000) := by
    rw [round_eq, Int.le_floor]
    push_cast
    nlinarith
  have h2 : (1:ℝ) ≤ ((round (y * 10000) : ℤ) : ℝ) := by exact_mod_cast h1
  linarith

/-- C3: the table's reported IDF is the raw IDF rounded to 4 decimals and
each weight is the term frequency times that already-rounded IDF, the
product itself rounded; magnitudes and dot products are rounded at their
computation boundary, and the cosine similarity divides the rounded dot
product by the product of the two rounded magnitudes before a final
rounding. -/
theorem rounding_boundaries (q : Str) (docs : List Str) :
    ((calculateTFIDF q docs).map fun r =>
        (r.IDF, r.TFIDF_Q, r.TFIDF_D1, r.TFIDF_D2, r.TFIDF_D3, r.TFIDF_D4))
      = ((getUniqueTerms (q :: docs)).map fun t =>
          (round4 (inverseDocumentFrequency t docs),
           round4 ((termFrequency t q : ℝ) * round4 (inverseDocumentFrequency t docs)),
           round4 ((termFrequency t (docs.getD 0 []) : ℝ)
             * round4 (inverseDocumentFrequency t docs)),
           round4 ((termFrequency t (docs.getD 1 []) : ℝ)
             * round4 (inverseDocumentFrequency t docs)),
           round4 ((termFrequency t (docs.getD 2 []) : ℝ)
             * round4 (inverseDocumentFrequency t docs)),
           round4 ((termFrequency t (docs.getD 3 []) : ℝ)
             * round4 (inverseDocumentFrequency t docs))))
    ∧ (∀ v : List ℝ,
        vectorMagnitude v = round4 (Real.sqrt ((v.map fun x => x * x).sum)))
    ∧ (∀ v w : List ℝ,
        dotProduct v w = round4 ((List.zipWith (fun a b => a * b) v w).sum))
    ∧ (∀ v w : List ℝ,
        (cosineSimilarity v w).similarityScore
          = jsToFixed4 (jsDiv (dotProduct v w)
              (vectorMagnitude v * vectorMagnitude w))) := by
  refine ⟨?_, ?_, ?_, ?_⟩
  · unfold calculateTFIDF
    rw [List.map_map]
    rfl
  · intro v
    unfold vectorMagnitude
    rw [foldl_sq_eq_sum v 0, zero_add]
  · intro v w
    unfold dotProduct
    rw [foldl_add_eq_sum _ 0, zero_add]
  · intro v w
    rfl

/-- In a list of rows with pairwise distinct terms, searching for the term
of a member row finds exactly that row. -/
theorem find?_term_nodup :
    ∀ (rows : List TermRow), (rows.map fun r => r.term).Nodup →
      ∀ r ∈ rows, rows.find? (fun s => decide (s.term = r.term)) = some r := by
  intro rows
  induction rows with
  | nil => intro _ r hr; cases hr
  | cons a as ih =>
    intro hnd r hr
    rw [List.map_cons, List.nodup_cons] at hnd
    rcases List.mem_cons.mp hr with rfl | hr2
    · exact List.find?_cons_of_pos _ (by simp)
    · have hne : a.term ≠ r.term := by
        intro he
        exact hnd.1 (he ▸ List.mem_map_of_mem (fun r => r.term) hr2)
      rw [List.find?_cons_of_neg _ (by simp [hne])]
      exact ih hnd.2 r hr2

/-- Looking a member row's own term up in the object built by the
`reduce`-overwrite idiom returns that row's value, provided the terms are
pairwise distinct. -/
theorem buildMap_eq_of_mem (rows : List TermRow) (f : TermRow → Option ℝ)
    (hnd : (rows.map fun r => r.term).Nodup) (r : TermRow) (hr : r ∈ rows) :
    buildMap rows f r.term = f r := by
  unfold buildMap
  have hndrev : (rows.reverse.map fun r => r.term).Nodup := by
    rw [List.map_reverse]
    exact List.nodup_reverse.mpr hnd
  rw [find?_term_nodup rows.reverse hndrev r (List.mem_reverse.mpr hr)]
  rfl

/-- The generic shape of every vector `rankDocuments` builds: position `i`
holds the looked-up weight of the table's row `i` (given pairwise distinct
terms). -/
theorem createVector_buildMap (table : List TermRow) (f : TermRow → Option ℝ)
    (hnd : (table.map fun r => r.term).Nodup) :
    createVector (buildMap table f) (table.map fun r => r.term)
      = table.map fun r => (f r).getD 0 := by
  unfold createVector
  rw [List.map_map]
  apply List.map_congr_left
  intro r hr
  show (buildMap table f r.term).getD 0 = (f r).getD 0
  rw [buildMap_eq_of_mem table f hnd r hr]

/-- C9: within one invocation of `rankDocuments` (whose table has pairwise
distinct terms), the query vector and every document vector are the
corresponding weight columns of the table in the table's own term order: in
particular all vectors have the vocabulary's length, index `i` corresponds
to vocabulary term `i` in every vector alike, and a document index outside
`D1..D4` yields the all-zero column (`undefined` weights read back as
`0`). -/
theorem vector_alignment (table : List TermRow)
    (hnd : (table.map fun r => r.term).Nodup) :
    queryVectorOf table = (table.map fun r => r.TFIDF_Q)
    ∧ docVectorOf table 1 = (table.map fun r => r.TFIDF_D1)
    ∧ docVectorOf table 2 = (table.map fun r => r.TFIDF_D2)
    ∧ docVectorOf table 3 = (table.map fun r => r.TFIDF_D3)
    ∧ docVectorOf table 4 = (table.map fun r => r.TFIDF_D4)
    ∧ (∀ j : ℕ, j = 0 ∨ 5 ≤ j → docVectorOf table j = table.map fun _ => (0:ℝ))
    ∧ (queryVectorOf table).length = (table.map fun r => r.term).length
    ∧ ∀ j : ℕ, (docVectorOf table j).length = (table.map fun r => r.term).length := by
  refine ⟨?_, ?_, ?_, ?_, ?_, ?_, ?_, ?_⟩
  · exact createVector_buildMap table _ hnd
  · exact createVector_buildMap table _ hnd
  · exact createVector_buildMap table _ hnd
  · exact createVector_buildMap table _ hnd
  · exact createVector_buildMap table _ hnd
  · intro j hj
    rw [show docVectorOf table j
          = createVector (buildMap table fun r => rowWeightD r j)
              (table.map fun r => r.term) from rfl]
    rw [createVector_buildMap table _ hnd]
    apply List.map_congr_left
    intro r _
    have h0 : rowWeightD r j = none := by
      rcases hj with rfl | hj
      · rfl
      · obtain ⟨m, rfl⟩ : ∃ m, j = m + 5 := ⟨j - 5, by omega⟩
        rfl
    show (rowWeightD r j).getD 0 = 0
    rw [h0]
    rfl
  · unfold queryVectorOf createVector
    rw [List.map_map, List.length_map, List.length_map]
  · intro j
    unfold docVectorOf createVector
    rw [List.map_map, List.length_map, List.length_map]

/-- A concrete one-row table used by witnesses. -/
def sampleRow : TermRow :=
  { term := ['a']
    TF_Q := 1
    TF_D1 := 1
    TF_D2 := 0
    TF_D3 := 0
    TF_D4 := 0
    DF := 1
    IDF := 1
    TFIDF_Q := 1
    TFIDF_D1 := 1
    TFIDF_D2 := 0
    TFIDF_D3 := 0
    TFIDF_D4 := 0
    containingDocs := ['D', '1'] }

/-- Witness for C9 at a concrete one-row table. -/
theorem vector_alignment_witness :
    (([sampleRow] : List TermRow).map fun r => r.term).Nodup
    ∧ queryVectorOf [sampleRow] = ([sampleRow] : List TermRow).map (fun r => r.TFIDF_Q) :=
  ⟨by decide, (vector_alignment [sampleRow] (by decide)).1⟩

/-- A value read out of a built weight object with default `0` is
nonnegative whenever every stored weight is. -/
theorem buildMap_getD_nonneg (rows : List TermRow) (f : TermRow → Option ℝ)
    (h : ∀ r ∈ rows, ∀ x : ℝ, f r = some x → 0 ≤ x) (t : Str) :
    0 ≤ (buildMap rows f t).getD 0 := by
  have hbind : ∀ o : Option TermRow, (∀ r, o = some r → r ∈ rows) →
      0 ≤ ((o.bind f).getD 0) := by
    intro o ho
    rcases o with _ | r
    · simp
    · have hr := ho r rfl
      rcases hx : f r with _ | x
      · simp [hx]
      · rw [show (some r).bind f = f r from rfl, hx]
        exact h r hr x hx
  unfold buildMap
  apply hbind
  intro r hr
  exact List.mem_reverse.mp (List.mem_of_find?_eq_some hr)

/-- A positional product sum of two entrywise-nonnegative vectors is
nonnegative. -/
theorem zipWith_mul_sum_nonneg :
    ∀ v w : List ℝ, (∀ x ∈ v, 0 ≤ x) → (∀ x ∈ w, 0 ≤ x) →
      0 ≤ (List.zipWith (fun a b => a * b) v w).sum := by
  intro v
  induction v with
  | nil => intro w _ _; simp
  | cons a as ih =>
    intro w hv hw
    cases w with
    | nil => simp
    | cons b bs =>
      rw [List.zipWith_cons_cons, List.sum_cons]
      have h1 := ih bs (fun x hx => hv x (List.mem_cons_of_mem a hx))
        (fun x hx => hw x (List.mem_cons_of_mem b hx))
      have h2 := mul_nonneg (hv a (List.mem_cons_self a as)) (hw b (List.mem_cons_self b bs))
      linarith

/-- A positional product sum against an all-zero left vector vanishes. -/
theorem zipWith_mul_sum_zero_left :
    ∀ v w : List ℝ, (∀ x ∈ v, x = 0) →
      (List.zipWith (fun a b => a * b) v w).sum = 0 := by
  intro v
  induction v with
  | nil => intro w _; simp
  | cons a as ih =>
    intro w hv
    cases w with
    | nil => simp
    | cons b bs =>
      rw [List.zipWith_cons_cons, List.sum_cons, hv a (List.mem_cons_self a as),
        zero_mul, zero_add]
      exact ih bs (fun x hx => hv x (List.mem_cons_of_mem a hx))

/-- A positional product sum against an all-zero right vector vanishes. -/
theorem zipWith_mul_sum_zero_right :
    ∀ v w : List ℝ, (∀ x ∈ w, x = 0) →
      (List.zipWith (fun a b => a * b) v w).sum = 0 := by
  intro v
  induction v with
  | nil => intro w _; simp
  | cons a as ih =>
    intro w hw
    cases w with
    | nil => simp
    | cons b bs =>
      rw [List.zipWith_cons_cons, List.sum_cons, hw b (List.mem_cons_self b bs),
        mul_zero, zero_add]
      exact ih bs (fun x hx => hw x (List.mem_cons_of_mem b hx))

/-- Membership in a stable insertion. -/
theorem mem_insertLe {α : Type} (le : α → α → Bool) (a x : α) :
    ∀ l : List α, (x ∈ insertLe le a l ↔ x = a ∨ x ∈ l) := by
  intro l
  induction l with
  | nil => simp [insertLe]
  | cons b bs ih =>
    unfold insertLe
    by_cases h : le a b = true
    · rw [if_pos h]
      simp
    · rw [if_neg h]
      simp only [List.mem_cons, ih]
      tauto

/-- The stable insertion sort permutes: membership is preserved. -/
theorem mem_sortLe {α : Type} (le : α → α → Bool) (x : α) :
    ∀ l : List α, (x ∈ sortLe le l ↔ x ∈ l) := by
  intro l
  induction l with
  | nil => simp [sortLe]
  | cons a as ih =>
    unfold sortLe
    rw [mem_insertLe]
    simp [ih]

/-- Every element of the pre-sort ranked list is the record of some
document index. -/
theorem mem_rankEntriesAux (qv : List ℝ) (table : List TermRow) :
    ∀ (docs : List Str) (j : ℕ) (x : RankedResult),
      x ∈ rankEntriesAux qv table j docs → ∃ i : ℕ, x = mkEntry qv table i := by
  intro docs
  induction docs with
  | nil => intro j x hx; simp [rankEntriesAux] at hx
  | cons d ds ih =>
    intro j x hx
    rw [show rankEntriesAux qv table j (d :: ds)
          = mkEntry qv table j :: rankEntriesAux qv table (j + 1) ds from rfl] at hx
    rcases List.mem_cons.mp hx with rfl | hx2
    · exact ⟨j, rfl⟩
    · exact ih (j + 1) x hx2

/-- Every TF-IDF weight in the table is nonnegative: the term frequency is
a count and the rounded IDF is nonnegative. -/
theorem calculateTFIDF_weights_nonneg (q : Str) (docs : List Str) :
    ∀ r ∈ calculateTFIDF q docs,
      0 ≤ r.TFIDF_Q ∧ 0 ≤ r.TFIDF_D1 ∧ 0 ≤ r.TFIDF_D2
      ∧ 0 ≤ r.TFIDF_D3 ∧ 0 ≤ r.TFIDF_D4 := by
  intro r hr
  unfold calculateTFIDF at hr
  rw [List.mem_map] at hr
  obtain ⟨t, _, rfl⟩ := hr
  have hidf : 0 ≤ round4 (inverseDocumentFrequency t docs) :=
    round4_nonneg (idf_nonneg t docs)
  exact ⟨round4_nonneg (mul_nonneg (Nat.cast_nonneg _) hidf),
    round4_nonneg (mul_nonneg (Nat.cast_nonneg _) hidf),
    round4_nonneg (mul_nonneg (Nat.cast_nonneg _) hidf),
    round4_nonneg (mul_nonneg (Nat.cast_nonneg _) hidf),
    round4_nonneg (mul_nonneg (Nat.cast_nonneg _) hidf)⟩

/-- A weight a row reports for any document index is one of its
`TFIDF_D1..TFIDF_D4` fields. -/
theorem rowWeightD_nonneg (r : TermRow)
    (h : 0 ≤ r.TFIDF_D1 ∧ 0 ≤ r.TFIDF_D2 ∧ 0 ≤ r.TFIDF_D3 ∧ 0 ≤ r.TFIDF_D4)
    (j : ℕ) (y : ℝ) (hy : rowWeightD r j = some y) : 0 ≤ y := by
  rcases j with _ | _ | _ | _ | _ | j
  · exact Option.noConfusion hy
  · exact (Option.some.inj hy) ▸ h.1
  · exact (Option.some.inj hy) ▸ h.2.1
  · exact (Option.some.inj hy) ▸ h.2.2.1
  · exact (Option.some.inj hy) ▸ h.2.2.2
  · exact Option.noConfusion hy

/-- Every entry of the query vector of a real TF-IDF table is
nonnegative. -/
theorem queryVectorOf_nonneg (q : Str) (docs : List Str) :
    ∀ x ∈ queryVectorOf (calculateTFIDF q docs), 0 ≤ x := by
  intro x hx
  unfold queryVectorOf createVector at hx
  rw [List.mem_map] at hx
  obtain ⟨t, _, rfl⟩ := hx
  apply buildMap_getD_nonneg
  intro r hr y hy
  have h := (calculateTFIDF_weights_nonneg q docs r hr).1
  injection hy with h2
  rw [← h2]
  exact h

/-- Every entry of every document vector of a real TF-IDF table is
nonnegative. -/
theorem docVectorOf_nonneg (q : Str) (docs : List Str) (j : ℕ) :
    ∀ x ∈ docVectorOf (calculateTFIDF q docs) j, 0 ≤ x := by
  intro x hx
  unfold docVectorOf createVector at hx
  rw [List.mem_map] at hx
  obtain ⟨t, _, rfl⟩ := hx
  apply buildMap_getD_nonneg
  intro r hr y hy
  exact rowWeightD_nonneg r (calculateTFIDF_weights_nonneg q docs r hr).2 j y hy

/-- The rounded dot product of entrywise-nonnegative vectors is
nonnegative. -/
theorem dotProduct_nonneg (v w : List ℝ)
    (hv : ∀ x ∈ v, 0 ≤ x) (hw : ∀ x ∈ w, 0 ≤ x) : 0 ≤ dotProduct v w := by
  unfold dotProduct
  rw [foldl_add_eq_sum _ 0, zero_add]
  exact round4_nonneg (zipWith_mul_sum_nonneg v w hv hw)

/-- A rounded magnitude is nonnegative. -/
theorem vectorMagnitude_nonneg (v : List ℝ) : 0 ≤ vectorMagnitude v :=
  round4_nonneg (Real.sqrt_nonneg _)

/-- On an entrywise-nonnegative vector, keeping the strictly positive
entries is the same as keeping the nonzero entries. -/
theorem filter_pos_eq_filter_ne (v : List ℝ) (h : ∀ x ∈ v, 0 ≤ x) :
    (v.filter fun x => decide (0 < x)) = v.filter fun x => decide (x ≠ 0) := by
  apply List.filter_congr
  intro x hx
  simp only [decide_eq_decide]
  constructor
  · exact fun h1 => ne_of_gt h1
  · exact fun h1 => lt_of_le_of_ne (h x hx) (Ne.symm h1)

/-- C10: every TF-IDF weight produced by `calculateTFIDF` is nonnegative,
hence every vector entry, every magnitude and every dot product in
`rankDocuments` is nonnegative, and filtering the entries with `v > 0`
selects exactly the nonzero entries of the query vector and of every
document vector. -/
theorem nonneg_invariants (q : Str) (docs : List Str) :
    ((calculateTFIDF q docs).Forall fun r =>
        0 ≤ r.TFIDF_Q ∧ 0 ≤ r.TFIDF_D1 ∧ 0 ≤ r.TFIDF_D2
        ∧ 0 ≤ r.TFIDF_D3 ∧ 0 ≤ r.TFIDF_D4)
    ∧ ((queryVectorOf (calculateTFIDF q docs)).Forall fun x => 0 ≤ x)
    ∧ (∀ j : ℕ, (docVectorOf (calculateTFIDF q docs) j).Forall fun x => 0 ≤ x)
    ∧ ((rankDocuments docs (calculateTFIDF q docs)).Forall fun r =>
        0 ≤ r.dotProduct ∧ 0 ≤ r.vectorLength ∧ 0 ≤ r.margitanQuery)
    ∧ ((queryVectorOf (calculateTFIDF q docs)).filter (fun x => decide (0 < x))
        = (queryVectorOf (calculateTFIDF q docs)).filter fun x => decide (x ≠ 0))
    ∧ ∀ j : ℕ,
        (docVectorOf (calculateTFIDF q docs) j).filter (fun x => decide (0 < x))
          = (docVectorOf (calculateTFIDF q docs) j).filter fun x => decide (x ≠ 0) := by
  have hq := queryVectorOf_nonneg q docs
  have hd := docVectorOf_nonneg q docs
  refine ⟨List.forall_iff_forall_mem.mpr (calculateTFIDF_weights_nonneg q docs),
    List.forall_iff_forall_mem.mpr hq,
    fun j => List.forall_iff_forall_mem.mpr (hd j),
    ?_,
    filter_pos_eq_filter_ne _ hq,
    fun j => filter_pos_eq_filter_ne _ (hd j)⟩
  rw [List.forall_iff_forall_mem]
  intro r hr
  unfold rankDocuments at hr
  rw [mem_sortLe] at hr
  obtain ⟨i, rfl⟩ := mem_rankEntriesAux _ _ docs 1 r hr
  refine ⟨?_, ?_, ?_⟩
  · show 0 ≤ dotProduct (queryVectorOf (calculateTFIDF q docs))
      (docVectorOf (calculateTFIDF q docs) i)
    exact dotProduct_nonneg _ _ hq (hd i)
  · show 0 ≤ vectorMagnitude (docVectorOf (calculateTFIDF q docs) i)
    exact vectorMagnitude_nonneg _
  · show 0 ≤ vectorMagnitude (queryVectorOf (calculateTFIDF q docs))
    exact vectorMagnitude_nonneg _

/-- An integer multiple of one ten-thousandth — the form of every value the
pipeline's `toFixed(4)`-and-reparse discipline produces, hence of every
vector entry in `rankDocuments`. -/
def grid4 (x : ℝ) : Prop :=
  ∃ k : ℤ, x = (k : ℝ) / 10000

/-- Rounding to 4 decimals lands on the grid. -/
theorem grid4_round4 (x : ℝ) : grid4 (round4 x) :=
  ⟨round (x * 10000), rfl⟩

/-- A nonzero grid value is at least one ulp away from zero in square:
`x = k/10000` with `k ≠ 0` gives `x² ≥ 1/10⁸`. -/
theorem grid4_sq_lower {x : ℝ} (hg : grid4 x) (hx : x ≠ 0) :
    1 / 100000000 ≤ x * x := by
  obtain ⟨k, rfl⟩ := hg
  have hk : k ≠ 0 := by
    intro h
    apply hx
    rw [h]
    norm_num
  have hk2 : (1:ℤ) ≤ k * k := by
    rcases lt_or_gt_of_ne hk with h | h
    · nlinarith
    · nlinarith
  have hkR : (1:ℝ) ≤ (k:ℝ) * (k:ℝ) := by exact_mod_cast hk2
  have hsq : (k:ℝ) / 10000 * ((k:ℝ) / 10000) = (k:ℝ) * (k:ℝ) / 100000000 := by
    ring
  rw [hsq]
  linarith

/-- The rounded magnitude of an all-zero vector is zero. -/
theorem vectorMagnitude_eq_zero_of_zero (v : List ℝ) (h : ∀ x ∈ v, x = 0) :
    vectorMagnitude v = 0 := by
  unfold vectorMagnitude
  rw [foldl_sq_eq_sum v 0, zero_add]
  have hs : ((v.map fun x => x * x).sum) = 0 := by
    apply List.sum_eq_zero
    intro y hy
    rw [List.mem_map] at hy
    obtain ⟨x, hx, rfl⟩ := hy
    rw [h x hx]
    norm_num
  rw [hs, Real.sqrt_zero, round4_zero]

/-- Conversely, a vector of grid values whose rounded magnitude is zero is
the zero vector: a nonzero grid entry forces the sum of squares to at least
`1/10⁸`, the root to at least `1/10⁴`, and the rounding cannot take that
to zero. -/
theorem all_zero_of_vectorMagnitude_eq_zero (v : List ℝ) (hg : ∀ x ∈ v, grid4 x)
    (hm : vectorMagnitude v = 0) : ∀ x ∈ v, x = 0 := by
  intro x hx
  by_contra hne
  have h1 := grid4_sq_lower (hg x hx) hne
  have h2 : x * x ≤ ((v.map fun y => y * y).sum) := by
    apply List.single_le_sum
    · intro y hy
      rw [List.mem_map] at hy
      obtain ⟨z, _, rfl⟩ := hy
      exact mul_self_nonneg z
    · exact List.mem_map_of_mem _ hx
  have h3 : Real.sqrt (1 / 100000000) ≤ Real.sqrt ((v.map fun y => y * y).sum) :=
    Real.sqrt_le_sqrt (le_trans h1 h2)
  have h4 : Real.sqrt (1 / 100000000) = 1 / 10000 := by
    rw [show (1 / 100000000 : ℝ) = (1 / 10000)^2 by norm_num]
    exact Real.sqrt_sq (by norm_num)
  have h5 : 0 < round4 (Real.sqrt ((v.map fun y => y * y).sum)) := by
    apply round4_pos
    rw [← h4]
    exact h3
  unfold vectorMagnitude at hm
  rw [foldl_sq_eq_sum v 0, zero_add] at hm
  exact absurd hm (ne_of_gt h5)

/-- C4: when the query vector or the document vector (entries on the
`toFixed(4)` grid, as all pipeline vectors are) has zero rounded magnitude,
`cosineSimilarity` still divides — there is no guard — and the similarity
is the non-numeric `NaN` of `0/0`, not a value coerced to `0`. -/
theorem cosine_zero_magnitude_nan (v w : List ℝ)
    (hv : ∀ x ∈ v, grid4 x) (hw : ∀ x ∈ w, grid4 x)
    (h0 : vectorMagnitude v = 0 ∨ vectorMagnitude w = 0) :
    (cosineSimilarity v w).similarityScore = JSVal.nan := by
  have hdot : dotProduct v w = 0 := by
    unfold dotProduct
    rw [foldl_add_eq_sum _ 0, zero_add]
    rcases h0 with h | h
    · rw [zipWith_mul_sum_zero_left v w
        (all_zero_of_vectorMagnitude_eq_zero v hv h), round4_zero]
    · rw [zipWith_mul_sum_zero_right v w
        (all_zero_of_vectorMagnitude_eq_zero w hw h), round4_zero]
  have hden : vectorMagnitude v * vectorMagnitude w = 0 := by
    rcases h0 with h | h
    · rw [h, zero_mul]
    · rw [h, mul_zero]
  show jsToFixed4 (jsDiv (dotProduct v w)
    (vectorMagnitude v * vectorMagnitude w)) = JSVal.nan
  rw [hdot, hden]
  simp [jsDiv, jsToFixed4]

/-- Witness for C4 at the concrete zero vectors `[0]` and `[0]`. -/
theorem cosine_zero_magnitude_nan_witness :
    (∀ x ∈ ([(0:ℝ)] : List ℝ), grid4 x)
    ∧ vectorMagnitude [(0:ℝ)] = 0
    ∧ (cosineSimilarity [(0:ℝ)] [(0:ℝ)]).similarityScore = JSVal.nan := by
  have hg : ∀ x ∈ ([(0:ℝ)] : List ℝ), grid4 x := by
    intro x hx
    rw [List.mem_singleton] at hx
    exact ⟨0, by rw [hx]; norm_num⟩
  have hz : ∀ x ∈ ([(0:ℝ)] : List ℝ), x = 0 := by
    intro x hx
    rw [List.mem_singleton] at hx
    exact hx
  have hm : vectorMagnitude [(0:ℝ)] = 0 := vectorMagnitude_eq_zero_of_zero _ hz
  exact ⟨hg, hm, cosine_zero_magnitude_nan [(0:ℝ)] [(0:ℝ)] hg hg (Or.inl hm)⟩

/-- The intended order of the ranked output: strictly larger similarity
first, and among equal similarities the smaller (original) document index
first. -/
def Rdesc (a b : RankedResult) : Prop :=
  JSVal.valD b.similarity < JSVal.valD a.similarity
  ∨ (JSVal.valD a.similarity = JSVal.valD b.similarity ∧ a.docIndex < b.docIndex)

/-- The ranking order is transitive. -/
theorem Rdesc_trans {a b c : RankedResult} (h1 : Rdesc a b) (h2 : Rdesc b c) :
    Rdesc a c := by
  rcases h1 with h1 | ⟨h1, h1i⟩ <;> rcases h2 with h2 | ⟨h2, h2i⟩
  · exact Or.inl (lt_trans h2 h1)
  · exact Or.inl (by rw [← h2]; exact h1)
  · exact Or.inl (by rw [h1]; exact h2)
  · exact Or.inr ⟨h1.trans h2, lt_trans h1i h2i⟩

/-- On two numeric similarities the comparator model reduces to a real
comparison. -/
theorem simLe_num {a b : RankedResult} {x y : ℝ}
    (ha : a.similarity = JSVal.num x) (hb : b.similarity = JSVal.num y) :
    simLe a b = !(decide (x < y)) := by
  unfold simLe
  rw [ha, hb]
  rfl

/-- Reading the default value of a numeric similarity. -/
theorem valD_num {a : RankedResult} {x : ℝ} (ha : a.similarity = JSVal.num x) :
    JSVal.valD a.similarity = x := by
  rw [ha]
  rfl

/-- Inserting the earliest element (smallest document index, numeric
similarity) into a sorted list of numeric-similarity records keeps the
list sorted in the ranking order. -/
theorem insertLe_pairwise (a : RankedResult) (hax : ∃ x : ℝ, a.similarity = JSVal.num x) :
    ∀ l : List RankedResult,
      (∀ r ∈ l, ∃ x : ℝ, r.similarity = JSVal.num x) →
      (∀ r ∈ l, a.docIndex < r.docIndex) →
      l.Pairwise Rdesc →
      (insertLe simLe a l).Pairwise Rdesc := by
  intro l
  induction l with
  | nil =>
    intro _ _ _
    simp [insertLe]
  | cons b bs ih =>
    intro hl hidx hp
    obtain ⟨x, hax2⟩ := hax
    obtain ⟨y, hby⟩ := hl b (List.mem_cons_self b bs)
    rw [List.pairwise_cons] at hp
    unfold insertLe
    by_cases hle : simLe a b = true
    · rw [if_pos hle]
      have hab : Rdesc a b := by
        rw [simLe_num hax2 hby] at hle
        simp only [Bool.not_eq_true', decide_eq_false_iff_not, not_lt] at hle
        rcases eq_or_lt_of_le hle with heq | hlt
        · exact Or.inr ⟨by rw [valD_num hax2, valD_num hby]; exact heq.symm,
            hidx b (List.mem_cons_self b bs)⟩
        · exact Or.inl (by rw [valD_num hax2, valD_num hby]; exact hlt)
      rw [List.pairwise_cons]
      refine ⟨?_, List.pairwise_cons.mpr ⟨hp.1, hp.2⟩⟩
      intro r hr
      rcases List.mem_cons.mp hr with rfl | hr2
      · exact hab
      · exact Rdesc_trans hab (hp.1 r hr2)
    · rw [if_neg hle]
      have hba : Rdesc b a := by
        have hxy : x < y := by
          by_contra hnot
          apply hle
          rw [simLe_num hax2 hby]
          simp [hnot]
        exact Or.inl (by rw [valD_num hax2, valD_num hby]; exact hxy)
      rw [List.pairwise_cons]
      refine ⟨?_, ih (fun r hr => hl r (List.mem_cons_of_mem b hr))
        (fun r hr => hidx r (List.mem_cons_of_mem b hr)) hp.2⟩
      intro r hr
      rcases (mem_insertLe simLe a r bs).mp hr with rfl | hr2
      · exact hba
      · exact hp.1 r hr2

/-- The stable insertion sort under the source's comparator sorts any list
of numeric-similarity records with strictly increasing document indices
into the ranking order (descending similarity, ties by original index). -/
theorem sortLe_pairwise :
    ∀ l : List RankedResult,
      (∀ r ∈ l, ∃ x : ℝ, r.similarity = JSVal.num x) →
      l.Pairwise (fun a b => a.docIndex < b.docIndex) →
      (sortLe simLe l).Pairwise Rdesc := by
  intro l
  induction l with
  | nil =>
    intro _ _
    simp [sortLe]
  | cons a as ih =>
    intro hl hp
    rw [List.pairwise_cons] at hp
    unfold sortLe
    apply insertLe_pairwise a (hl a (List.mem_cons_self a as))
    · intro r hr
      exact hl r (List.mem_cons_of_mem a ((mem_sortLe simLe r as).mp hr))
    · intro r hr
      exact hp.1 r ((mem_sortLe simLe r as).mp hr)
    · exact ih (fun r hr => hl r (List.mem_cons_of_mem a hr)) hp.2

/-- Every record of the pre-sort list carries at least the starting
document index. -/
theorem rankEntriesAux_docIndex_ge (qv : List ℝ) (table : List TermRow) :
    ∀ (docs : List Str) (j : ℕ), ∀ r ∈ rankEntriesAux qv table j docs,
      j ≤ r.docIndex := by
  intro docs
  induction docs with
  | nil =>
    intro j r hr
    simp [rankEntriesAux] at hr
  | cons d ds ih =>
    intro j r hr
    rw [show rankEntriesAux qv table j (d :: ds)
          = mkEntry qv table j :: rankEntriesAux qv table (j + 1) ds from rfl] at hr
    rcases List.mem_cons.mp hr with rfl | hr2
    · exact le_of_eq rfl
    · exact le_trans (Nat.le_succ j) (ih (j + 1) r hr2)

/-- The pre-sort list carries strictly increasing document indices (the
original document order). -/
theorem rankEntriesAux_pairwise_idx (qv : List ℝ) (table : List TermRow) :
    ∀ (docs : List Str) (j : ℕ),
      (rankEntriesAux qv table j docs).Pairwise fun a b =>
        a.docIndex < b.docIndex := by
  intro docs
  induction docs with
  | nil =>
    intro j
    simp [rankEntriesAux]
  | cons d ds ih =>
    intro j
    rw [show rankEntriesAux qv table j (d :: ds)
          = mkEntry qv table j :: rankEntriesAux qv table (j + 1) ds from rfl]
    rw [List.pairwise_cons]
    refine ⟨?_, ih (j + 1)⟩
    intro r hr
    have h1 := rankEntriesAux_docIndex_ge qv table ds (j + 1) r hr
    have h2 : (mkEntry qv table j).docIndex = j := rfl
    omega

/-- C2: when every similarity is numeric, the output of `rankDocuments` is
sorted by similarity descending, and among equal similarities the entry
with the smaller original document index comes first (the sort is
stable). -/
theorem ranking_sorted_stable (docs : List Str) (table : List TermRow)
    (hnum : ∀ r ∈ rankDocuments docs table, ∃ x : ℝ, r.similarity = JSVal.num x) :
    (rankDocuments docs table).Pairwise fun a b =>
      JSVal.valD b.similarity < JSVal.valD a.similarity
      ∨ (JSVal.valD a.similarity = JSVal.valD b.similarity
         ∧ a.docIndex < b.docIndex) := by
  have hnum2 : ∀ r ∈ rankEntriesAux (queryVectorOf table) table 1 docs,
      ∃ x : ℝ, r.similarity = JSVal.num x := by
    intro r hr
    apply hnum
    exact (mem_sortLe simLe r _).mpr hr
  exact sortLe_pairwise _ hnum2 (rankEntriesAux_pairwise_idx _ _ docs 1)

/-- Witness for C2: one document against the one-row table, where the
similarity computes to the numeric value `1`. -/
theorem ranking_sorted_stable_witness :
    (∀ r ∈ rankDocuments [['x']] [sampleRow], ∃ x : ℝ, r.similarity = JSVal.num x)
    ∧ (rankDocuments [['x']] [sampleRow]).Pairwise fun a b =>
        JSVal.valD b.similarity < JSVal.valD a.similarity
        ∨ (JSVal.valD a.similarity = JSVal.valD b.similarity
           ∧ a.docIndex < b.docIndex) := by
  have hlist : rankDocuments [['x']] [sampleRow]
      = [mkEntry (queryVectorOf [sampleRow]) [sampleRow] 1] := rfl
  have hq : queryVectorOf [sampleRow] = [(1:ℝ)] := rfl
  have hd : docVectorOf [sampleRow] 1 = [(1:ℝ)] := rfl
  have hdot : dotProduct [(1:ℝ)] [(1:ℝ)] = 1 := by
    unfold dotProduct
    rw [show ((List.zipWith (fun value value2 => value * value2)
          [(1:ℝ)] [(1:ℝ)]).foldl (fun sum x => sum + x) 0) = (0 + 1 * 1 : ℝ) from rfl]
    rw [show (0 + 1 * 1 : ℝ) = 1 by norm_num, round4_one]
  have hmagn : vectorMagnitude [(1:ℝ)] = 1 := by
    unfold vectorMagnitude
    rw [show (([(1:ℝ)]).foldl (fun sum value => sum + value * value) 0)
          = (0 + 1 * 1 : ℝ) from rfl]
    rw [show (0 + 1 * 1 : ℝ) = 1 by norm_num, Real.sqrt_one, round4_one]
  have hsim : (mkEntry (queryVectorOf [sampleRow]) [sampleRow] 1).similarity
      = JSVal.num 1 := by
    show (cosineSimilarity (queryVectorOf [sampleRow])
      (docVectorOf [sampleRow] 1)).similarityScore = JSVal.num 1
    rw [hq, hd]
    show jsToFixed4 (jsDiv (dotProduct [(1:ℝ)] [(1:ℝ)])
      (vectorMagnitude [(1:ℝ)] * vectorMagnitude [(1:ℝ)])) = JSVal.num 1
    rw [hdot, hmagn]
    rw [show (1 * 1 : ℝ) = 1 by norm_num]
    unfold jsDiv
    rw [if_neg (by norm_num : ¬ (1:ℝ) = 0)]
    show JSVal.num (round4 (1 / 1)) = JSVal.num 1
    rw [show (1 / 1 : ℝ) = 1 by norm_num, round4_one]
  have hmem : ∀ r ∈ rankDocuments [['x']] [sampleRow],
      ∃ x : ℝ, r.similarity = JSVal.num x := by
    intro r hr
    rw [hlist, List.mem_singleton] at hr
    exact ⟨1, by rw [hr]; exact hsim⟩
  exact ⟨hmem, ranking_sorted_stable [['x']] [sampleRow] hmem⟩

/-- Set insertion keeps the collected terms pairwise distinct. -/
theorem insertUnique_nodup (l : List Str) (t : Str) (h : l.Nodup) :
    (insertUnique l t).Nodup := by
  unfold insertUnique
  by_cases ht : t ∈ l
  · rw [if_pos ht]
    exact h
  · rw [if_neg ht]
    rw [List.nodup_append]
    refine ⟨h, List.nodup_singleton t, ?_⟩
    intro a ha hat
    rw [List.mem_singleton] at hat
    exact ht (hat ▸ ha)

/-- Folding set insertions over any token list keeps distinctness. -/
theorem foldl_insertUnique_nodup (ts : List Str) :
    ∀ acc : List Str, acc.Nodup → (ts.foldl insertUnique acc).Nodup := by
  induction ts with
  | nil => intro acc h; exact h
  | cons t ts ih =>
    intro acc h
    exact ih (insertUnique acc t) (insertUnique_nodup acc t h)

/-- The vocabulary `getUniqueTerms` builds has pairwise distinct terms (it
comes out of a `Set`). -/
theorem getUniqueTerms_nodup (documents : List Str) :
    (getUniqueTerms documents).Nodup := by
  unfold getUniqueTerms
  have h : ∀ (ds : List Str) (acc : List Str), acc.Nodup →
      (ds.foldl (fun acc doc => (tokenize doc).foldl insertUnique acc) acc).Nodup := by
    intro ds
    induction ds with
    | nil => intro acc h; exact h
    | cons d ds ih =>
      intro acc hacc
      exact ih _ (foldl_insertUnique_nodup (tokenize d) acc hacc)
  exact h documents [] List.nodup_nil

/-- The table `calculateTFIDF` produces (and hence, up to the caller's
re-sorting, the table `rankDocuments` receives) has pairwise distinct
terms, so the distinctness hypothesis of the vector-alignment theorem is
met by every real invocation. -/
theorem calculateTFIDF_terms_nodup (q : Str) (docs : List Str) :
    ((calculateTFIDF q docs).map fun r => r.term).Nodup := by
  have h2 : ((calculateTFIDF q docs).map fun r => r.term)
      = getUniqueTerms (q :: docs) := by
    unfold calculateTFIDF
    rw [List.map_map]
    show (getUniqueTerms (q :: docs)).map (fun t => t) = getUniqueTerms (q :: docs)
    simp
  rw [h2]
  exact getUniqueTerms_nodup _
